import Mathlib

/-!
# Verification of the qr-base45 codec (`src/lib.rs`)

A shallow embedding of the Base45 encoder/decoder from `src/lib.rs`.
Bytes are modelled as `Nat` values below 256; text is modelled as the list
of its UTF-8 byte values (all alphabet characters are ASCII, so a character
of the alphabet is one byte).  Rust's fallible indexing is modelled by a
checked variant `encodeChecked`; the total `encode` uses `List.getD`, and
`encodeChecked_eq_encode` in the theorems below shows the panic branch is
unreachable on byte inputs.
-/

set_option autoImplicit false

namespace QrBase45

/-- The three decoder error kinds of `Base45Error` in `src/lib.rs`. -/
inductive Base45Error where
  | InvalidChar
  | Dangling
  | Overflow
deriving DecidableEq, Repr

/-- `BASE45_ALPHABET`: the byte values of
`b"0123456789ABCDEFGHIJKLMNOPQRSTUVWXYZ $%*+-./:"` (RFC 9285 alphabet). -/
def BASE45_ALPHABET : List Nat :=
  [48, 49, 50, 51, 52, 53, 54, 55, 56, 57,
   65, 66, 67, 68, 69, 70, 71, 72, 73, 74, 75, 76, 77, 78, 79, 80,
   81, 82, 83, 84, 85, 86, 87, 88, 89, 90,
   32, 36, 37, 42, 43, 45, 46, 47, 58]

/-- `b45_val`: character byte to its base-45 value, `none` outside the
alphabet.  Mirrors the `match` in `src/lib.rs` (byte ranges for `'0'..='9'`
and `'A'..='Z'`, then the nine punctuation bytes). -/
def b45_val (ch : Nat) : Option Nat :=
  if 48 ≤ ch ∧ ch ≤ 57 then some (ch - 48)
  else if 65 ≤ ch ∧ ch ≤ 90 then some (10 + (ch - 65))
  else if ch = 32 then some 36
  else if ch = 36 then some 37
  else if ch = 37 then some 38
  else if ch = 42 then some 39
  else if ch = 43 then some 40
  else if ch = 45 then some 41
  else if ch = 46 then some 42
  else if ch = 47 then some 43
  else if ch = 58 then some 44
  else none

/-- The alphabet character at index `i` (`BASE45_ALPHABET[i]` in the Rust
source; `getD` with default 0 stands for the in-bounds access, and
`encodeChecked` below models the panicking access faithfully). -/
def alphaAt (i : Nat) : Nat :=
  BASE45_ALPHABET.getD i 0

/-- `encode` of `src/lib.rs`: two bytes `hi, lo` become the three base-45
digits of `hi*256 + lo`, least-significant first; a final single byte
becomes two digits. -/
def encode : List Nat → List Nat
  | hi :: lo :: rest =>
    let x := hi * 256 + lo
    alphaAt (x % 45) :: alphaAt (x / 45 % 45) :: alphaAt (x / 45 / 45) :: encode rest
  | [u] =>
    [alphaAt (u % 45), alphaAt (u / 45)]
  | [] => []

/-- `encode` with Rust's fallible table indexing made explicit: an
out-of-bounds `BASE45_ALPHABET[..]` access (a panic in Rust) is `none`. -/
def encodeChecked : List Nat → Option (List Nat)
  | hi :: lo :: rest =>
    let x := hi * 256 + lo
    match BASE45_ALPHABET.get? (x % 45), BASE45_ALPHABET.get? (x / 45 % 45),
        BASE45_ALPHABET.get? (x / 45 / 45), encodeChecked rest with
    | some c, some b, some a, some tail => some (c :: b :: a :: tail)
    | _, _, _, _ => none
  | [u] =>
    match BASE45_ALPHABET.get? (u % 45), BASE45_ALPHABET.get? (u / 45) with
    | some b, some a => some [b, a]
    | _, _ => none
  | [] => some []

/-- `decode` of `src/lib.rs`.  The `while i + 2 < bytes.len()` loop is the
first arm (three or more characters remain); the `?`-propagation of
`b45_val(..).ok_or(InvalidChar)` is the nested `match`; afterwards the
leftover of one character yields `InvalidChar`/`Dangling` and a leftover
pair decodes a single byte. -/
def decode : List Nat → Except Base45Error (List Nat)
  | ch0 :: ch1 :: ch2 :: rest =>
    match b45_val ch0 with
    | none => .error .InvalidChar
    | some c0 =>
      match b45_val ch1 with
      | none => .error .InvalidChar
      | some c1 =>
        match b45_val ch2 with
        | none => .error .InvalidChar
        | some c2 =>
          let x := c2 * 45 * 45 + c1 * 45 + c0
          if x > 65535 then .error .Overflow
          else
            match decode rest with
            | .error e => .error e
            | .ok tail => .ok (x / 256 :: x % 256 :: tail)
  | [ch0, ch1] =>
    match b45_val ch0 with
    | none => .error .InvalidChar
    | some c0 =>
      match b45_val ch1 with
      | none => .error .InvalidChar
      | some c1 =>
        let x := c1 * 45 + c0
        if x > 255 then .error .Overflow else .ok [x]
  | [ch] =>
    if (b45_val ch).isNone then .error .InvalidChar else .error .Dangling
  | [] => .ok []

/-! ## Basic lemmas about the alphabet and its inverse -/

/-- The alphabet has 45 entries. -/
theorem BASE45_ALPHABET_length : BASE45_ALPHABET.length = 45 := by decide

/-- Looking up the character at any index below 45 returns that index. -/
theorem b45_val_alphaAt : ∀ i < 45, b45_val (alphaAt i) = some i := by
  simp only [alphaAt, BASE45_ALPHABET]
  decide

/-- A successful lookup inverts the table: the value is below 45 and the
character is the alphabet entry at that value. -/
theorem b45_val_some_fwd {ch v : Nat} (h : b45_val ch = some v) :
    v < 45 ∧ alphaAt v = ch := by
  simp only [b45_val] at h
  by_cases h1 : 48 ≤ ch ∧ ch ≤ 57
  · rw [if_pos h1] at h
    injection h with h
    subst h
    refine ⟨by omega, ?_⟩
    obtain ⟨k, rfl⟩ : ∃ k, ch = 48 + k := ⟨ch - 48, by omega⟩
    have hk : k < 10 := by omega
    simp only [Nat.add_sub_cancel_left]
    interval_cases k <;> decide
  rw [if_neg h1] at h
  by_cases h2 : 65 ≤ ch ∧ ch ≤ 90
  · rw [if_pos h2] at h
    injection h with h
    subst h
    refine ⟨by omega, ?_⟩
    obtain ⟨k, rfl⟩ : ∃ k, ch = 65 + k := ⟨ch - 65, by omega⟩
    have hk : k < 26 := by omega
    simp only [Nat.add_sub_cancel_left]
    interval_cases k <;> decide
  rw [if_neg h2] at h
  by_cases h3 : ch = 32
  · rw [if_pos h3] at h; injection h with h; subst h; subst h3; exact ⟨by omega, by decide⟩
  rw [if_neg h3] at h
  by_cases h4 : ch = 36
  · rw [if_pos h4] at h; injection h with h; subst h; subst h4; exact ⟨by omega, by decide⟩
  rw [if_neg h4] at h
  by_cases h5 : ch = 37
  · rw [if_pos h5] at h; injection h with h; subst h; subst h5; exact ⟨by omega, by decide⟩
  rw [if_neg h5] at h
  by_cases h6 : ch = 42
  · rw [if_pos h6] at h; injection h with h; subst h; subst h6; exact ⟨by omega, by decide⟩
  rw [if_neg h6] at h
  by_cases h7 : ch = 43
  · rw [if_pos h7] at h; injection h with h; subst h; subst h7; exact ⟨by omega, by decide⟩
  rw [if_neg h7] at h
  by_cases h8 : ch = 45
  · rw [if_pos h8] at h; injection h with h; subst h; subst h8; exact ⟨by omega, by decide⟩
  rw [if_neg h8] at h
  by_cases h9 : ch = 46
  · rw [if_pos h9] at h; injection h with h; subst h; subst h9; exact ⟨by omega, by decide⟩
  rw [if_neg h9] at h
  by_cases h10 : ch = 47
  · rw [if_pos h10] at h; injection h with h; subst h; subst h10; exact ⟨by omega, by decide⟩
  rw [if_neg h10] at h
  by_cases h11 : ch = 58
  · rw [if_pos h11] at h; injection h with h; subst h; subst h11; exact ⟨by omega, by decide⟩
  rw [if_neg h11] at h
  exact absurd h (by simp)

/-- Characterization of a successful lookup: `b45_val ch = some v` holds
exactly when `v` is an index below 45 whose alphabet entry is `ch`. -/
theorem b45_val_some_iff (ch v : Nat) :
    b45_val ch = some v ↔ v < 45 ∧ alphaAt v = ch := by
  constructor
  · exact b45_val_some_fwd
  · rintro ⟨hv, rfl⟩
    exact b45_val_alphaAt v hv

/-- A successful lookup yields a value below 45. -/
theorem b45_val_lt {ch v : Nat} (h : b45_val ch = some v) : v < 45 :=
  (b45_val_some_fwd h).1

/-- A successful lookup inverts the table. -/
theorem alphaAt_b45_val {ch v : Nat} (h : b45_val ch = some v) :
    alphaAt v = ch :=
  (b45_val_some_fwd h).2

/-- Lookup fails exactly on the characters outside the alphabet:
never a default value and never a wraparound. -/
theorem b45_val_none_iff (ch : Nat) :
    b45_val ch = none ↔ ch ∉ BASE45_ALPHABET := by
  constructor
  · intro hnone hmem
    obtain ⟨i, hi, hch⟩ := List.mem_iff_getElem.mp hmem
    have hi45 : i < 45 := by
      simpa [BASE45_ALPHABET_length] using hi
    have : b45_val ch = some i := by
      have halpha : alphaAt i = ch := by
        rw [alphaAt, List.getD_eq_getElem BASE45_ALPHABET 0 hi]
        exact hch
      rw [← halpha]
      exact b45_val_alphaAt i hi45
    rw [hnone] at this
    exact Option.noConfusion this
  · intro hmem
    cases hval : b45_val ch with
    | none => rfl
    | some v =>
      obtain ⟨hv, halpha⟩ := b45_val_some_fwd hval
      have hvlen : v < BASE45_ALPHABET.length := by
        simpa [BASE45_ALPHABET_length] using hv
      have : ch ∈ BASE45_ALPHABET := by
        rw [← halpha, alphaAt, List.getD_eq_getElem BASE45_ALPHABET 0 hvlen]
        exact List.getElem_mem hvlen
      exact absurd this hmem

/-! ## Unfolding equations for `encode` and `decode` -/

theorem encode_nil : encode [] = [] := rfl

theorem encode_single (u : Nat) :
    encode [u] = [alphaAt (u % 45), alphaAt (u / 45)] := rfl

theorem encode_cons2 (hi lo : Nat) (rest : List Nat) :
    encode (hi :: lo :: rest) =
      alphaAt ((hi * 256 + lo) % 45) :: alphaAt ((hi * 256 + lo) / 45 % 45) ::
        alphaAt ((hi * 256 + lo) / 45 / 45) :: encode rest := rfl

/-- A three-character step of the decoder, with all three lookups resolved. -/
theorem decode_cons3 {ch0 ch1 ch2 v0 v1 v2 : Nat} (rest : List Nat)
    (h0 : b45_val ch0 = some v0) (h1 : b45_val ch1 = some v1)
    (h2 : b45_val ch2 = some v2) :
    decode (ch0 :: ch1 :: ch2 :: rest) =
      if v2 * 45 * 45 + v1 * 45 + v0 > 65535 then .error .Overflow
      else
        match decode rest with
        | .error e => .error e
        | .ok tail =>
            .ok ((v2 * 45 * 45 + v1 * 45 + v0) / 256 ::
                 (v2 * 45 * 45 + v1 * 45 + v0) % 256 :: tail) := by
  simp only [decode, h0, h1, h2]

/-- The final two-character step of the decoder, with both lookups resolved. -/
theorem decode_pair {ch0 ch1 v0 v1 : Nat}
    (h0 : b45_val ch0 = some v0) (h1 : b45_val ch1 = some v1) :
    decode [ch0, ch1] =
      if v1 * 45 + v0 > 255 then .error .Overflow else .ok [v1 * 45 + v0] := by
  simp only [decode, h0, h1]

/-! ## Round-trip: decoding the encoder's output -/

/-- Decoding inverts encoding on byte inputs. -/
theorem decode_encode : ∀ bs : List Nat, (∀ y ∈ bs, y < 256) →
    decode (encode bs) = .ok bs
  | [], _ => rfl
  | [u], h => by
    have hu : u < 256 := h u (by simp)
    have h0 : b45_val (alphaAt (u % 45)) = some (u % 45) :=
      b45_val_alphaAt _ (by omega)
    have h1 : b45_val (alphaAt (u / 45)) = some (u / 45) :=
      b45_val_alphaAt _ (by omega)
    rw [encode_single, decode_pair h0 h1]
    have hx : u / 45 * 45 + u % 45 = u := by omega
    rw [hx, if_neg (by omega : ¬ u > 255)]
  | hi :: lo :: rest, h => by
    have hhi : hi < 256 := h hi (by simp)
    have hlo : lo < 256 := h lo (by simp)
    have ih := decode_encode rest (fun y hy => h y (by simp [hy]))
    have h0 : b45_val (alphaAt ((hi * 256 + lo) % 45)) =
        some ((hi * 256 + lo) % 45) := b45_val_alphaAt _ (by omega)
    have h1 : b45_val (alphaAt ((hi * 256 + lo) / 45 % 45)) =
        some ((hi * 256 + lo) / 45 % 45) := b45_val_alphaAt _ (by omega)
    have h2 : b45_val (alphaAt ((hi * 256 + lo) / 45 / 45)) =
        some ((hi * 256 + lo) / 45 / 45) := b45_val_alphaAt _ (by omega)
    rw [encode_cons2, decode_cons3 _ h0 h1 h2]
    have hx : (hi * 256 + lo) / 45 / 45 * 45 * 45 +
        (hi * 256 + lo) / 45 % 45 * 45 + (hi * 256 + lo) % 45 = hi * 256 + lo := by
      omega
    rw [hx, if_neg (by omega : ¬ hi * 256 + lo > 65535), ih]
    simp only [Except.ok.injEq, List.cons.injEq]
    exact ⟨by omega, by omega, trivial⟩

/-! ## Output length of the encoder -/

/-- `encode` emits `⌈3n/2⌉` characters for `n` input bytes. -/
theorem encode_length : ∀ bs : List Nat,
    (encode bs).length = (3 * bs.length + 1) / 2
  | [] => rfl
  | [u] => by simp [encode_single]
  | hi :: lo :: rest => by
    rw [encode_cons2]
    simp only [List.length_cons, encode_length rest]
    omega

/-! ## Canonicity of accepted text -/

/-- A character with a successful lookup is an alphabet character. -/
theorem b45_mem_of_some {ch v : Nat} (h : b45_val ch = some v) :
    ch ∈ BASE45_ALPHABET := by
  by_contra hmem
  have hnone := (b45_val_none_iff ch).mpr hmem
  rw [h] at hnone
  exact Option.noConfusion hnone

/-- Decoder equation for a single leftover character. -/
theorem decode_one (ch : Nat) :
    decode [ch] =
      if (b45_val ch).isNone then .error .InvalidChar else .error .Dangling := rfl

/-- Every accepted text is the encoding of its output, output lengths follow
the group structure, and every character of an accepted text is in the
alphabet. -/
theorem decode_ok_strong : ∀ s bs : List Nat, decode s = .ok bs →
    encode bs = s ∧
    ((s.length % 3 = 0 ∧ bs.length = 2 * (s.length / 3)) ∨
     (s.length % 3 = 2 ∧ bs.length = 2 * (s.length / 3) + 1)) ∧
    ∀ ch ∈ s, ch ∈ BASE45_ALPHABET
  | [], bs, hok => by
    simp only [decode, Except.ok.injEq] at hok
    subst hok
    exact ⟨rfl, Or.inl ⟨rfl, rfl⟩, by simp⟩
  | [ch], bs, hok => by
    simp only [decode_one] at hok
    split at hok <;> exact Except.noConfusion hok
  | [ch0, ch1], bs, hok => by
    simp only [decode] at hok
    cases hv0 : b45_val ch0 with
    | none =>
      simp only [hv0] at hok
      exact Except.noConfusion hok
    | some v0 =>
      simp only [hv0] at hok
      cases hv1 : b45_val ch1 with
      | none =>
        simp only [hv1] at hok
        exact Except.noConfusion hok
      | some v1 =>
        simp only [hv1] at hok
        by_cases hov : v1 * 45 + v0 > 255
        · rw [if_pos hov] at hok
          exact Except.noConfusion hok
        · rw [if_neg hov] at hok
          injection hok with hbs
          subst hbs
          have hb0 := b45_val_lt hv0
          have hb1 := b45_val_lt hv1
          refine ⟨?_, Or.inr ⟨rfl, by simp⟩, ?_⟩
          · rw [encode_single]
            have e0 : (v1 * 45 + v0) % 45 = v0 := by omega
            have e1 : (v1 * 45 + v0) / 45 = v1 := by omega
            rw [e0, e1, alphaAt_b45_val hv0, alphaAt_b45_val hv1]
          · intro ch hch
            simp only [List.mem_cons, List.not_mem_nil, or_false] at hch
            rcases hch with rfl | rfl
            · exact b45_mem_of_some hv0
            · exact b45_mem_of_some hv1
  | ch0 :: ch1 :: ch2 :: rest, bs, hok => by
    simp only [decode] at hok
    cases hv0 : b45_val ch0 with
    | none =>
      simp only [hv0] at hok
      exact Except.noConfusion hok
    | some v0 =>
      simp only [hv0] at hok
      cases hv1 : b45_val ch1 with
      | none =>
        simp only [hv1] at hok
        exact Except.noConfusion hok
      | some v1 =>
        simp only [hv1] at hok
        cases hv2 : b45_val ch2 with
        | none =>
          simp only [hv2] at hok
          exact Except.noConfusion hok
        | some v2 =>
          simp only [hv2] at hok
          by_cases hov : v2 * 45 * 45 + v1 * 45 + v0 > 65535
          · rw [if_pos hov] at hok
            exact Except.noConfusion hok
          · rw [if_neg hov] at hok
            cases hrest : decode rest with
            | error e =>
              simp only [hrest] at hok
              exact Except.noConfusion hok
            | ok tail =>
              simp only [hrest, Except.ok.injEq] at hok
              subst hok
              obtain ⟨ihenc, ihlen, ihmem⟩ := decode_ok_strong rest tail hrest
              have hb0 := b45_val_lt hv0
              have hb1 := b45_val_lt hv1
              have hb2 := b45_val_lt hv2
              refine ⟨?_, ?_, ?_⟩
              · rw [encode_cons2]
                have hx : (v2 * 45 * 45 + v1 * 45 + v0) / 256 * 256 +
                    (v2 * 45 * 45 + v1 * 45 + v0) % 256 =
                    v2 * 45 * 45 + v1 * 45 + v0 := by omega
                rw [hx]
                have d0 : (v2 * 45 * 45 + v1 * 45 + v0) % 45 = v0 := by omega
                have d1 : (v2 * 45 * 45 + v1 * 45 + v0) / 45 % 45 = v1 := by omega
                have d2 : (v2 * 45 * 45 + v1 * 45 + v0) / 45 / 45 = v2 := by omega
                rw [d0, d1, d2, alphaAt_b45_val hv0, alphaAt_b45_val hv1,
                    alphaAt_b45_val hv2, ihenc]
              · rcases ihlen with ⟨hm, hl⟩ | ⟨hm, hl⟩
                · left
                  simp only [List.length_cons]
                  omega
                · right
                  simp only [List.length_cons]
                  omega
              · intro ch hch
                simp only [List.mem_cons] at hch
                rcases hch with rfl | rfl | rfl | h
                · exact b45_mem_of_some hv0
                · exact b45_mem_of_some hv1
                · exact b45_mem_of_some hv2
                · exact ihmem ch h

/-! ## The encoder's table accesses are in bounds -/

/-- Fallible indexing into the alphabet succeeds below index 45. -/
theorem BASE45_get? (i : Nat) (hi : i < 45) :
    BASE45_ALPHABET.get? i = some (alphaAt i) := by
  have hlen : i < BASE45_ALPHABET.length := by
    rw [BASE45_ALPHABET_length]
    exact hi
  rw [List.get?_eq_getElem?, List.getElem?_eq_getElem hlen, alphaAt,
      List.getD_eq_getElem BASE45_ALPHABET 0 hlen]

/-- On byte inputs the checked encoder never reaches the out-of-bounds
(panic) branch: it agrees with `encode`. -/
theorem encodeChecked_eq_encode : ∀ bs : List Nat, (∀ y ∈ bs, y < 256) →
    encodeChecked bs = some (encode bs)
  | [], _ => rfl
  | [u], h => by
    have hu : u < 256 := h u (by simp)
    rw [encode_single]
    simp only [encodeChecked, BASE45_get? _ (by omega : u % 45 < 45),
      BASE45_get? _ (by omega : u / 45 < 45)]
  | hi :: lo :: rest, h => by
    have hhi : hi < 256 := h hi (by simp)
    have hlo : lo < 256 := h lo (by simp)
    have ih := encodeChecked_eq_encode rest (fun y hy => h y (by simp [hy]))
    rw [encode_cons2]
    simp only [encodeChecked,
      BASE45_get? _ (by omega : (hi * 256 + lo) % 45 < 45),
      BASE45_get? _ (by omega : (hi * 256 + lo) / 45 % 45 < 45),
      BASE45_get? _ (by omega : (hi * 256 + lo) / 45 / 45 < 45), ih]

/-- The decoder always returns a byte sequence or one of the three typed
errors. -/
theorem decode_total (s : List Nat) :
    (∃ bs, decode s = .ok bs) ∨ decode s = .error .InvalidChar ∨
      decode s = .error .Dangling ∨ decode s = .error .Overflow := by
  cases h : decode s with
  | ok bs => exact Or.inl ⟨bs, rfl⟩
  | error e =>
    cases e
    · exact Or.inr (Or.inl rfl)
    · exact Or.inr (Or.inr (Or.inl rfl))
    · exact Or.inr (Or.inr (Or.inr rfl))

/-! ## Left-to-right processing -/

/-- A successfully decoded, triple-aligned prefix passes through: the decoder
appends its bytes and continues on the remainder. -/
theorem decode_append : ∀ t r bt : List Nat, t.length % 3 = 0 →
    decode t = .ok bt →
    decode (t ++ r) = (decode r).map (fun br => bt ++ br)
  | [], r, bt, _, hok => by
    simp only [decode, Except.ok.injEq] at hok
    subst hok
    simp only [List.nil_append]
    cases decode r <;> simp [Except.map]
  | [ch], _, _, hlen, _ => by
    simp only [List.length_cons, List.length_nil] at hlen
    omega
  | [ch0, ch1], _, _, hlen, _ => by
    simp only [List.length_cons, List.length_nil] at hlen
    omega
  | ch0 :: ch1 :: ch2 :: t', r, bt, hlen, hok => by
    simp only [decode] at hok
    cases hv0 : b45_val ch0 with
    | none =>
      simp only [hv0] at hok
      exact Except.noConfusion hok
    | some v0 =>
      simp only [hv0] at hok
      cases hv1 : b45_val ch1 with
      | none =>
        simp only [hv1] at hok
        exact Except.noConfusion hok
      | some v1 =>
        simp only [hv1] at hok
        cases hv2 : b45_val ch2 with
        | none =>
          simp only [hv2] at hok
          exact Except.noConfusion hok
        | some v2 =>
          simp only [hv2] at hok
          by_cases hov : v2 * 45 * 45 + v1 * 45 + v0 > 65535
          · rw [if_pos hov] at hok
            exact Except.noConfusion hok
          · rw [if_neg hov] at hok
            cases hrest : decode t' with
            | error e =>
              simp only [hrest] at hok
              exact Except.noConfusion hok
            | ok tail =>
              simp only [hrest, Except.ok.injEq] at hok
              subst hok
              have hlen' : t'.length % 3 = 0 := by
                simp only [List.length_cons] at hlen
                omega
              have ih := decode_append t' r tail hlen' hrest
              show decode (ch0 :: ch1 :: ch2 :: (t' ++ r)) = _
              rw [decode_cons3 _ hv0 hv1 hv2, if_neg hov, ih]
              cases decode r <;> simp [Except.map]

/-- No text of length congruent to 1 mod 3 is ever accepted. -/
theorem decode_len1_not_ok (s : List Nat) (h : s.length % 3 = 1)
    (bs : List Nat) : decode s ≠ .ok bs := by
  intro hok
  rcases (decode_ok_strong s bs hok).2.1 with ⟨hm, _⟩ | ⟨hm, _⟩ <;> omega

/-- Three-character decoder step in `Except.map` form. -/
theorem decode_cons3_map {ch0 ch1 ch2 v0 v1 v2 : Nat} (rest : List Nat)
    (h0 : b45_val ch0 = some v0) (h1 : b45_val ch1 = some v1)
    (h2 : b45_val ch2 = some v2) :
    decode (ch0 :: ch1 :: ch2 :: rest) =
      if v2 * 45 * 45 + v1 * 45 + v0 > 65535 then .error .Overflow
      else
        (decode rest).map
          (fun tail => (v2 * 45 * 45 + v1 * 45 + v0) / 256 ::
            (v2 * 45 * 45 + v1 * 45 + v0) % 256 :: tail) := by
  rw [decode_cons3 rest h0 h1 h2]
  by_cases hov : v2 * 45 * 45 + v1 * 45 + v0 > 65535
  · rw [if_pos hov, if_pos hov]
  · rw [if_neg hov, if_neg hov]
    cases decode rest <;> simp [Except.map]

/-- Lookup value of the digit characters, used for concrete evaluations. -/
theorem b45_val_58 : b45_val 58 = some 44 := by decide

theorem b45_val_90 : b45_val 90 = some 35 := by decide

/-! ## Claims -/

/-- C1: for every byte sequence `b`, `decode (encode b)` returns `Ok b` —
decoding the encoder's output recovers the original bytes exactly, for
empty, even-length, and odd-length inputs alike. -/
theorem C1_round_trip (bs : List Nat) (h : ∀ y ∈ bs, y < 256) :
    decode (encode bs) = .ok bs :=
  decode_encode bs h

/-- C1 witness: the round-trip at the odd-length byte input `[72, 105, 33]`. -/
theorem C1_round_trip_witness :
    (∀ y ∈ [72, 105, 33], y < 256) ∧
      decode (encode [72, 105, 33]) = .ok [72, 105, 33] :=
  ⟨by decide, C1_round_trip [72, 105, 33] (by decide)⟩

/-- C2: the encoder processes input left to right in groups: a full pair
`(hi, lo)` yields `x = hi*256 + lo` and emits the three alphabet characters
of indices `x % 45`, `x / 45 % 45`, `x / 45 / 45` in that order
(least-significant digit first); a trailing single byte `u` emits exactly
the two characters of indices `u % 45` then `u / 45`; and
`encode [0x41, 0x42] = "BB8"` (byte values `[66, 66, 56]`). -/
theorem C2_encode_groups :
    (∀ hi lo : Nat, ∀ rest : List Nat, hi < 256 → lo < 256 →
      encode (hi :: lo :: rest) =
        alphaAt ((hi * 256 + lo) % 45) :: alphaAt ((hi * 256 + lo) / 45 % 45) ::
          alphaAt ((hi * 256 + lo) / 45 / 45) :: encode rest ∧
      b45_val (alphaAt ((hi * 256 + lo) % 45)) = some ((hi * 256 + lo) % 45) ∧
      b45_val (alphaAt ((hi * 256 + lo) / 45 % 45)) =
        some ((hi * 256 + lo) / 45 % 45) ∧
      b45_val (alphaAt ((hi * 256 + lo) / 45 / 45)) =
        some ((hi * 256 + lo) / 45 / 45)) ∧
    (∀ u : Nat, u < 256 →
      encode [u] = [alphaAt (u % 45), alphaAt (u / 45)] ∧
      b45_val (alphaAt (u % 45)) = some (u % 45) ∧
      b45_val (alphaAt (u / 45)) = some (u / 45)) ∧
    encode [65, 66] = [66, 66, 56] := by
  refine ⟨?_, ?_, ?_⟩
  · intro hi lo rest hhi hlo
    exact ⟨encode_cons2 hi lo rest, b45_val_alphaAt _ (by omega),
      b45_val_alphaAt _ (by omega), b45_val_alphaAt _ (by omega)⟩
  · intro u hu
    exact ⟨encode_single u, b45_val_alphaAt _ (by omega),
      b45_val_alphaAt _ (by omega)⟩
  · rw [encode_cons2, encode_nil]
    norm_num
    simp only [alphaAt, BASE45_ALPHABET]
    decide

/-- C2 witness: the pair and single-byte group equations at `(65, 66)`
and `65`. -/
theorem C2_encode_groups_witness :
    (encode (65 :: 66 :: []) =
      alphaAt ((65 * 256 + 66) % 45) :: alphaAt ((65 * 256 + 66) / 45 % 45) ::
        alphaAt ((65 * 256 + 66) / 45 / 45) :: encode []) ∧
    encode [65] = [alphaAt (65 % 45), alphaAt (65 / 45)] :=
  ⟨(C2_encode_groups.1 65 66 [] (by decide) (by decide)).1,
   (C2_encode_groups.2.1 65 (by decide)).1⟩

/-- C3: for text over the alphabet, each three-character group with values
`v0, v1, v2` (first least-significant) reconstructs
`x = v2*45*45 + v1*45 + v0`, fails with Overflow exactly when `x > 65535`,
and otherwise emits the bytes `x / 256` then `x % 256`; a final
two-character group reconstructs `x = v1*45 + v0`, fails with Overflow
exactly when `x > 255`, and otherwise emits the byte `x`; in particular
`decode ":::"` and `decode "ZZ"` both fail with Overflow. -/
theorem C3_decode_groups :
    (∀ ch0 ch1 ch2 v0 v1 v2 : Nat, ∀ rest : List Nat,
      b45_val ch0 = some v0 → b45_val ch1 = some v1 → b45_val ch2 = some v2 →
      decode (ch0 :: ch1 :: ch2 :: rest) =
        if v2 * 45 * 45 + v1 * 45 + v0 > 65535 then .error .Overflow
        else
          (decode rest).map
            (fun tail => (v2 * 45 * 45 + v1 * 45 + v0) / 256 ::
              (v2 * 45 * 45 + v1 * 45 + v0) % 256 :: tail)) ∧
    (∀ ch0 ch1 v0 v1 : Nat,
      b45_val ch0 = some v0 → b45_val ch1 = some v1 →
      decode [ch0, ch1] =
        if v1 * 45 + v0 > 255 then .error .Overflow else .ok [v1 * 45 + v0]) ∧
    decode [58, 58, 58] = .error .Overflow ∧
    decode [90, 90] = .error .Overflow := by
  refine ⟨?_, ?_, ?_, ?_⟩
  · intro ch0 ch1 ch2 v0 v1 v2 rest h0 h1 h2
    exact decode_cons3_map rest h0 h1 h2
  · intro ch0 ch1 v0 v1 h0 h1
    exact decode_pair h0 h1
  · rw [decode_cons3 [] b45_val_58 b45_val_58 b45_val_58,
      if_pos (by norm_num)]
  · rw [decode_pair b45_val_90 b45_val_90, if_pos (by norm_num)]

/-- C3 witness: the group equations at the all-zero triple `"000"` and the
pair `"00"`. -/
theorem C3_decode_groups_witness :
    (decode [48, 48, 48] =
      if 0 * 45 * 45 + 0 * 45 + 0 > 65535 then .error .Overflow
      else
        (decode []).map
          (fun tail => (0 * 45 * 45 + 0 * 45 + 0) / 256 ::
            (0 * 45 * 45 + 0 * 45 + 0) % 256 :: tail)) ∧
    (decode [48, 48] =
      if 0 * 45 + 0 > 255 then .error .Overflow else .ok [0 * 45 + 0]) :=
  ⟨C3_decode_groups.1 48 48 48 0 0 0 [] (by decide) (by decide) (by decide),
   C3_decode_groups.2.1 48 48 0 0 (by decide) (by decide)⟩

/-- C4 counterexample: the text `":::A"` (bytes `[58, 58, 58, 65]`) has
length `4 ≡ 1 (mod 3)` and its trailing character `'A'` is in the alphabet,
yet `decode` fails with Overflow from the first group, not with Dangling as
the claim states. -/
theorem C4_counterexample :
    [58, 58, 58, 65].length % 3 = 1 ∧ (b45_val 65).isSome = true ∧
    decode [58, 58, 58, 65] = .error .Overflow ∧
    decode [58, 58, 58, 65] ≠ .error .Dangling := by
  refine ⟨by decide, by decide, ?_, ?_⟩
  · rw [decode_cons3 [65] b45_val_58 b45_val_58 b45_val_58,
      if_pos (by norm_num)]
  · rw [decode_cons3 [65] b45_val_58 b45_val_58 b45_val_58,
      if_pos (by norm_num)]
    intro h
    exact Base45Error.noConfusion (Except.error.inj h)

/-- C4 (amended): for every text whose length is congruent to 1 mod 3,
decode never returns Ok; moreover, whenever the leading triple-aligned part
decodes successfully, decode fails with InvalidChar when the trailing
character is not in the alphabet and with Dangling when it is — character
validity is checked before the structural check; in particular
`decode "A"` fails with Dangling. -/
theorem C4_dangling (t : List Nat) (ch : Nat) (bt : List Nat)
    (hlen : t.length % 3 = 0) (hok : decode t = .ok bt) :
    (∀ s : List Nat, s.length % 3 = 1 → ∀ bs, decode s ≠ .ok bs) ∧
    decode (t ++ [ch]) =
      .error (if (b45_val ch).isNone then .InvalidChar else .Dangling) ∧
    decode [65] = .error .Dangling := by
  refine ⟨decode_len1_not_ok, ?_, ?_⟩
  · rw [decode_append t [ch] bt hlen hok, decode_one]
    by_cases hn : (b45_val ch).isNone
    · rw [if_pos hn, if_pos hn]
      rfl
    · rw [if_neg hn, if_neg hn]
      rfl
  · rw [decode_one, if_neg (by decide)]

/-- C4 witness: the amended claim at the empty prefix and trailing `'A'`. -/
theorem C4_dangling_witness :
    ([] : List Nat).length % 3 = 0 ∧ decode ([] : List Nat) = .ok [] ∧
    decode (([] : List Nat) ++ [65]) =
      .error (if (b45_val 65).isNone then .InvalidChar else .Dangling) :=
  ⟨by decide, rfl, (C4_dangling [] 65 [] (by decide) rfl).2.1⟩

/-- C5: the alphabet maps indices 0–9 to the digit characters, 10–35 to the
uppercase letters, and 36–44 to space, `$`, `%`, `*`, `+`, `-`, `.`, `/`,
`:` in that order; looking up the character at any index below 45 returns
that index, and looking up any character outside the alphabet returns no
value. -/
theorem C5_alphabet :
    (∀ d : Nat, d < 10 → alphaAt d = 48 + d) ∧
    (∀ k : Nat, k < 26 → alphaAt (10 + k) = 65 + k) ∧
    alphaAt 36 = 32 ∧ alphaAt 37 = 36 ∧ alphaAt 38 = 37 ∧ alphaAt 39 = 42 ∧
    alphaAt 40 = 43 ∧ alphaAt 41 = 45 ∧ alphaAt 42 = 46 ∧ alphaAt 43 = 47 ∧
    alphaAt 44 = 58 ∧ BASE45_ALPHABET.length = 45 ∧
    (∀ i : Nat, i < 45 → b45_val (alphaAt i) = some i) ∧
    (∀ ch : Nat, ch ∉ BASE45_ALPHABET → b45_val ch = none) := by
  refine ⟨?_, ?_, ?_, ?_, ?_, ?_, ?_, ?_, ?_, ?_, ?_, BASE45_ALPHABET_length,
    b45_val_alphaAt, fun ch => (b45_val_none_iff ch).mpr⟩
  · intro d hd
    simp only [alphaAt, BASE45_ALPHABET]
    interval_cases d <;> decide
  · intro k hk
    simp only [alphaAt, BASE45_ALPHABET]
    interval_cases k <;> decide
  all_goals decide

/-- C5 witness: the digit, letter, punctuation, inverse, and not-found
facts at concrete indices and characters. -/
theorem C5_alphabet_witness :
    alphaAt 7 = 48 + 7 ∧ alphaAt (10 + 25) = 65 + 25 ∧
    b45_val (alphaAt 44) = some 44 ∧ b45_val 91 = none :=
  ⟨C5_alphabet.1 7 (by decide), C5_alphabet.2.1 25 (by decide),
   (C5_alphabet.2.2.2.2.2.2.2.2.2.2.2.2.1) 44 (by decide),
   (C5_alphabet.2.2.2.2.2.2.2.2.2.2.2.2.2) 91 (by decide)⟩

/-- C6: the length of `encode b` is `⌈3·|b|/2⌉` (in natural-number
arithmetic, `(3·|b| + 1) / 2`); in particular the empty sequence encodes
to the empty string. -/
theorem C6_encode_length :
    (∀ bs : List Nat, (encode bs).length = (3 * bs.length + 1) / 2) ∧
    encode [] = [] :=
  ⟨encode_length, rfl⟩

/-- C7: the encoder is total on byte sequences — every alphabet index it
computes is in bounds, so the checked encoder (where an out-of-bounds
table access is `none`, Rust's panic) always succeeds and agrees with
`encode`; the decoder always returns either a byte sequence or one of the
three typed errors. -/
theorem C7_totality :
    (∀ bs : List Nat, (∀ y ∈ bs, y < 256) →
      encodeChecked bs = some (encode bs)) ∧
    (∀ s : List Nat, (∃ b, decode s = .ok b) ∨
      decode s = .error .InvalidChar ∨ decode s = .error .Dangling ∨
      decode s = .error .Overflow) :=
  ⟨encodeChecked_eq_encode, decode_total⟩

/-- C7 witness: the checked encoder succeeds on `[65, 66]`. -/
theorem C7_totality_witness :
    (∀ y ∈ [65, 66], y < 256) ∧
      encodeChecked [65, 66] = some (encode [65, 66]) :=
  ⟨by decide, C7_totality.1 [65, 66] (by decide)⟩

/-- Helper evaluation: `"BB8"` (bytes `[66, 66, 56]`) decodes to `"AB"`
(bytes `[65, 66]`). -/
theorem decode_BB8 : decode [66, 66, 56] = .ok [65, 66] := by
  rw [decode_cons3 [] (by decide : b45_val 66 = some 11)
    (by decide : b45_val 66 = some 11) (by decide : b45_val 56 = some 8),
    if_neg (by norm_num)]
  rfl

/-- C8: encoding is canonical in the reverse direction — every accepted
text is exactly the encoding of its decoded bytes; hence decode is
injective on the texts it accepts, and every accepted text consists only
of alphabet characters. -/
theorem C8_canonical :
    (∀ s bs : List Nat, decode s = .ok bs → encode bs = s) ∧
    (∀ s1 s2 bs : List Nat, decode s1 = .ok bs → decode s2 = .ok bs →
      s1 = s2) ∧
    (∀ s bs : List Nat, decode s = .ok bs → ∀ ch ∈ s,
      ch ∈ BASE45_ALPHABET) := by
  refine ⟨fun s bs h => (decode_ok_strong s bs h).1, ?_,
    fun s bs h => (decode_ok_strong s bs h).2.2⟩
  intro s1 s2 bs h1 h2
  rw [← (decode_ok_strong s1 bs h1).1, ← (decode_ok_strong s2 bs h2).1]

/-- C8 witness: the accepted text `"BB8"` is the encoding of its decoded
bytes `[65, 66]`. -/
theorem C8_canonical_witness :
    decode [66, 66, 56] = .ok [65, 66] ∧ encode [65, 66] = [66, 66, 56] :=
  ⟨decode_BB8, C8_canonical.1 [66, 66, 56] [65, 66] decode_BB8⟩

/-- C9 counterexample: the claim's parenthetical says a text of length
congruent to 1 mod 3 fails with InvalidChar or Dangling, but `"ZZZA"`
(bytes `[90, 90, 90, 65]`, length 4) fails with Overflow. -/
theorem C9_counterexample :
    [90, 90, 90, 65].length % 3 = 1 ∧
    decode [90, 90, 90, 65] = .error .Overflow ∧
    decode [90, 90, 90, 65] ≠ .error .InvalidChar ∧
    decode [90, 90, 90, 65] ≠ .error .Dangling := by
  have h : decode [90, 90, 90, 65] = .error .Overflow := by
    rw [decode_cons3 [65] b45_val_90 b45_val_90 b45_val_90,
      if_pos (by norm_num)]
  refine ⟨by decide, h, ?_, ?_⟩ <;> rw [h] <;> intro hc <;>
    exact Base45Error.noConfusion (Except.error.inj hc)

/-- C9 (amended): for every accepted text of length `m`, the output length
is `2·(m / 3)` when `m % 3 = 0` and `2·(m / 3) + 1` when `m % 3 = 2`;
decode never returns Ok for a text of length congruent to 1 mod 3 (it
fails with one of the three errors — Overflow is possible too, not only
InvalidChar or Dangling). -/
theorem C9_decode_length :
    (∀ s bs : List Nat, decode s = .ok bs →
      (s.length % 3 = 0 ∧ bs.length = 2 * (s.length / 3)) ∨
      (s.length % 3 = 2 ∧ bs.length = 2 * (s.length / 3) + 1)) ∧
    (∀ s : List Nat, s.length % 3 = 1 → ∀ bs, decode s ≠ .ok bs) :=
  ⟨fun s bs h => (decode_ok_strong s bs h).2.1, decode_len1_not_ok⟩

/-- C9 witness: the length law at the accepted text `"BB8"`. -/
theorem C9_decode_length_witness :
    decode [66, 66, 56] = .ok [65, 66] ∧
    ((([66, 66, 56] : List Nat).length % 3 = 0 ∧
      ([65, 66] : List Nat).length = 2 * (([66, 66, 56] : List Nat).length / 3)) ∨
     (([66, 66, 56] : List Nat).length % 3 = 2 ∧
      ([65, 66] : List Nat).length = 2 * (([66, 66, 56] : List Nat).length / 3) + 1)) :=
  ⟨decode_BB8, C9_decode_length.1 [66, 66, 56] [65, 66] decode_BB8⟩

/-- C10: the decoder reports the error of the leftmost failing group —
each of the three lookups of a group (in position order) short-circuits to
InvalidChar regardless of everything after it, the range check fires only
after all three lookups succeed, an in-range group passes through to the
rest of the text, and an Overflow in an earlier group wins over a later
invalid character (e.g. `decode ":::\t"`). -/
theorem C10_leftmost_error :
    (∀ ch0 ch1 ch2 : Nat, ∀ rest : List Nat, b45_val ch0 = none →
      decode (ch0 :: ch1 :: ch2 :: rest) = .error .InvalidChar) ∧
    (∀ ch0 ch1 ch2 v0 : Nat, ∀ rest : List Nat, b45_val ch0 = some v0 →
      b45_val ch1 = none →
      decode (ch0 :: ch1 :: ch2 :: rest) = .error .InvalidChar) ∧
    (∀ ch0 ch1 ch2 v0 v1 : Nat, ∀ rest : List Nat, b45_val ch0 = some v0 →
      b45_val ch1 = some v1 → b45_val ch2 = none →
      decode (ch0 :: ch1 :: ch2 :: rest) = .error .InvalidChar) ∧
    (∀ ch0 ch1 ch2 v0 v1 v2 : Nat, ∀ rest : List Nat, b45_val ch0 = some v0 →
      b45_val ch1 = some v1 → b45_val ch2 = some v2 →
      v2 * 45 * 45 + v1 * 45 + v0 > 65535 →
      decode (ch0 :: ch1 :: ch2 :: rest) = .error .Overflow) ∧
    (∀ ch0 ch1 ch2 v0 v1 v2 : Nat, ∀ rest : List Nat, b45_val ch0 = some v0 →
      b45_val ch1 = some v1 → b45_val ch2 = some v2 →
      v2 * 45 * 45 + v1 * 45 + v0 ≤ 65535 →
      decode (ch0 :: ch1 :: ch2 :: rest) =
        (decode rest).map
          (fun tail => (v2 * 45 * 45 + v1 * 45 + v0) / 256 ::
            (v2 * 45 * 45 + v1 * 45 + v0) % 256 :: tail)) ∧
    decode [58, 58, 58, 9] = .error .Overflow := by
  refine ⟨?_, ?_, ?_, ?_, ?_, ?_⟩
  · intro ch0 ch1 ch2 rest h0
    simp only [decode, h0]
  · intro ch0 ch1 ch2 v0 rest h0 h1
    simp only [decode, h0, h1]
  · intro ch0 ch1 ch2 v0 v1 rest h0 h1 h2
    simp only [decode, h0, h1, h2]
  · intro ch0 ch1 ch2 v0 v1 v2 rest h0 h1 h2 hov
    rw [decode_cons3 rest h0 h1 h2, if_pos hov]
  · intro ch0 ch1 ch2 v0 v1 v2 rest h0 h1 h2 hov
    rw [decode_cons3_map rest h0 h1 h2, if_neg (by omega)]
  · rw [decode_cons3 [9] b45_val_58 b45_val_58 b45_val_58,
      if_pos (by norm_num)]

/-- C10 witness: an invalid leading character short-circuits the whole
text (here `"\t00"`). -/
theorem C10_leftmost_error_witness :
    b45_val 9 = none ∧ decode [9, 48, 48] = .error .InvalidChar :=
  ⟨by decide, C10_leftmost_error.1 9 48 48 [] (by decide)⟩

end QrBase45
